import Mathlib

/-!
Verification of the generic collection-algebra toolkit in
`utils/datautil/datautil.go`.

Go maps are modelled as insertion-ordered association lists (`List (K × V)`):
`alistUpd` is `m[k] = f(m[k])` (the Go read uses the zero value `d` when the
key is absent), `alistFind` is `v, ok := m[k]`, and `alistDel` is
`delete(m, k)`.  Where the Go code ranges over a map (`for k := range m`) the
iteration order is unspecified, so the corresponding functions take an extra
parameter `σ` applied to the insertion-ordered key list; theorems assume only
that `σ` permutes its argument, which is exactly Go's guarantee.
-/

namespace DataUtil

/-- Insertion-ordered association-list update: replace the value stored at
`k` by `f` of it (using default `d` if `k` is absent), keeping positions;
append a fresh entry otherwise.  Models `m[k] = f(m[k])` on a Go map. -/
def alistUpd {K V : Type} [DecidableEq K] (m : List (K × V)) (k : K) (f : V → V) (d : V) :
    List (K × V) :=
  match m with
  | [] => [(k, f d)]
  | (k', v) :: m' => if k' = k then (k', f v) :: m' else (k', v) :: alistUpd m' k f d

/-- Association-list lookup, models `v, ok := m[k]` on a Go map. -/
def alistFind {K V : Type} [DecidableEq K] (m : List (K × V)) (k : K) : Option V :=
  match m with
  | [] => none
  | (k', v) :: m' => if k' = k then some v else alistFind m' k

/-- Association-list deletion, models `delete(m, k)` on a Go map. -/
def alistDel {K V : Type} [DecidableEq K] (m : List (K × V)) (k : K) : List (K × V) :=
  match m with
  | [] => []
  | (k', v) :: m' => if k' = k then m' else (k', v) :: alistDel m' k

theorem alistFind_upd {K V : Type} [DecidableEq K] (m : List (K × V)) (k k' : K)
    (f : V → V) (d : V) :
    alistFind (alistUpd m k f d) k' =
      if k' = k then some (f ((alistFind m k).getD d)) else alistFind m k' := by
  induction m with
  | nil =>
    by_cases h : k' = k
    · simp [alistUpd, alistFind, h]
    · have h' : ¬ k = k' := fun hh => h hh.symm
      simp [alistUpd, alistFind, h, h']
  | cons p m' ih =>
    obtain ⟨k0, v⟩ := p
    by_cases h0 : k0 = k
    · subst h0
      by_cases h1 : k' = k0
      · subst h1
        simp [alistUpd, alistFind]
      · have h1' : ¬ k0 = k' := fun hh => h1 hh.symm
        simp [alistUpd, alistFind, h1, h1']
    · by_cases h1 : k' = k0
      · subst h1
        simp [alistUpd, alistFind, h0]
      · have h1' : ¬ k0 = k' := fun hh => h1 hh.symm
        simp [alistUpd, alistFind, h0, h1, h1', ih]

theorem alistUpd_keys {K V : Type} [DecidableEq K] (m : List (K × V)) (k : K)
    (f : V → V) (d : V) :
    (alistUpd m k f d).map Prod.fst =
      if k ∈ m.map Prod.fst then m.map Prod.fst else m.map Prod.fst ++ [k] := by
  induction m with
  | nil => simp [alistUpd]
  | cons p m' ih =>
    obtain ⟨k0, v⟩ := p
    by_cases h0 : k0 = k
    · subst h0
      simp [alistUpd]
    · have : ¬ k = k0 := fun h => h0 h.symm
      by_cases h1 : k ∈ m'.map Prod.fst <;>
        simp [alistUpd, h0, h1, this, ih]

theorem alistDel_keys {K V : Type} [DecidableEq K] (m : List (K × V)) (k : K) :
    (alistDel m k).map Prod.fst = (m.map Prod.fst).erase k := by
  induction m with
  | nil => simp [alistDel]
  | cons p m' ih =>
    obtain ⟨k0, v⟩ := p
    by_cases h0 : k0 = k <;> simp [alistDel, h0, List.erase_cons, ih]

theorem alistFind_del_ne {K V : Type} [DecidableEq K] (m : List (K × V)) (k k' : K)
    (h : k' ≠ k) : alistFind (alistDel m k) k' = alistFind m k' := by
  induction m with
  | nil => simp [alistDel]
  | cons p m' ih =>
    obtain ⟨k0, v⟩ := p
    by_cases h0 : k0 = k
    · subst h0
      have h' : ¬ k0 = k' := fun hh => h hh.symm
      simp [alistDel, alistFind, h']
    · simp only [alistDel, if_neg h0, alistFind]
      by_cases h1 : k0 = k' <;> simp [h1, ih]

theorem alistFind_eq_none {K V : Type} [DecidableEq K] (m : List (K × V)) (k : K)
    (h : ¬ k ∈ m.map Prod.fst) : alistFind m k = none := by
  induction m with
  | nil => simp [alistFind]
  | cons p m' ih =>
    obtain ⟨k0, v⟩ := p
    simp only [List.map_cons, List.mem_cons] at h
    push_neg at h
    have : ¬ k0 = k := fun hh => h.1 hh.symm
    simp [alistFind, this, ih h.2]

theorem alistFind_del_self {K V : Type} [DecidableEq K] (m : List (K × V)) (k : K)
    (h : (m.map Prod.fst).Nodup) : alistFind (alistDel m k) k = none := by
  induction m with
  | nil => simp [alistDel, alistFind]
  | cons p m' ih =>
    obtain ⟨k0, v⟩ := p
    simp only [List.map_cons, List.nodup_cons] at h
    by_cases h0 : k0 = k
    · subst h0
      simpa [alistDel] using alistFind_eq_none m' k0 h.1
    · simp [alistDel, alistFind, h0, ih h.2]

theorem alistUpd_keys_nodup {K V : Type} [DecidableEq K] (m : List (K × V)) (k : K)
    (f : V → V) (d : V) (h : (m.map Prod.fst).Nodup) :
    ((alistUpd m k f d).map Prod.fst).Nodup := by
  rw [alistUpd_keys]
  by_cases h1 : k ∈ m.map Prod.fst <;> simp [h1, List.nodup_append, h]

theorem alistFind_isSome_iff {K V : Type} [DecidableEq K] (m : List (K × V)) (k : K) :
    (∃ v, alistFind m k = some v) ↔ k ∈ m.map Prod.fst := by
  induction m with
  | nil => simp [alistFind]
  | cons p m' ih =>
    obtain ⟨k0, v0⟩ := p
    by_cases h0 : k0 = k
    · subst h0
      simp [alistFind]
    · have : ¬ k = k0 := fun h => h0 h.symm
      simp [alistFind, h0, this, ih]

theorem alistFind_mem {K V : Type} [DecidableEq K] (m : List (K × V)) (k : K) (v : V)
    (h : alistFind m k = some v) : (k, v) ∈ m := by
  induction m with
  | nil => simp [alistFind] at h
  | cons p m' ih =>
    obtain ⟨k0, v0⟩ := p
    by_cases h0 : k0 = k
    · subst h0
      simp [alistFind] at h
      simp [h]
    · simp [alistFind, h0] at h
      exact List.mem_cons_of_mem _ (ih h)

theorem mem_alistUpd {K V : Type} [DecidableEq K] (m : List (K × V)) (k : K)
    (f : V → V) (d : V) (p : K × V) (h : p ∈ alistUpd m k f d) :
    p ∈ m ∨ (p.1 = k ∧ ∃ w, p.2 = f w) := by
  induction m with
  | nil =>
    simp [alistUpd] at h
    right
    subst h
    exact ⟨rfl, d, rfl⟩
  | cons q m' ih =>
    obtain ⟨k0, v0⟩ := q
    by_cases h0 : k0 = k
    · subst h0
      simp [alistUpd] at h
      rcases h with h | h
      · right
        subst h
        exact ⟨rfl, v0, rfl⟩
      · exact Or.inl (List.mem_cons_of_mem _ h)
    · simp [alistUpd, h0] at h
      rcases h with h | h
      · exact Or.inl (by simp [h])
      · rcases ih h with h' | h'
        · exact Or.inl (List.mem_cons_of_mem _ h')
        · exact Or.inr h'

/-- Concatenation of the images of a list: an executable stand-in for
`List.flatMap` used in specification statements. -/
def catMap {α β : Type} (f : α → List β) : List α → List β
  | [] => []
  | x :: xs => f x ++ catMap f xs

theorem catMap_append {α β : Type} (f : α → List β) (l₁ l₂ : List α) :
    catMap f (l₁ ++ l₂) = catMap f l₁ ++ catMap f l₂ := by
  induction l₁ with
  | nil => simp [catMap]
  | cons x xs ih => simp [catMap, ih]

theorem catMap_congr {α β : Type} {f g : α → List β} {l : List α}
    (h : ∀ x ∈ l, f x = g x) : catMap f l = catMap g l := by
  induction l with
  | nil => rfl
  | cons x xs ih =>
    simp only [catMap]
    rw [h x (List.mem_cons_self x xs), ih fun y hy => h y (List.mem_cons_of_mem x hy)]

theorem catMap_filter_of_eq_nil {α β : Type} (f : α → List β) (p : α → Bool)
    (l : List α) (h : ∀ x ∈ l, p x = false → f x = []) :
    catMap f l = catMap f (l.filter p) := by
  induction l with
  | nil => rfl
  | cons x xs ih =>
    have ih' := ih fun y hy => h y (List.mem_cons_of_mem x hy)
    by_cases hx : p x = true
    · simp [catMap, List.filter_cons, hx, ih']
    · have : p x = false := by simpa using hx
      simp [catMap, List.filter_cons, this, h x (List.mem_cons_self x xs) this, ih']

theorem catMap_perm {α β : Type} (f : α → List β) {l₁ l₂ : List α}
    (h : l₁.Perm l₂) : (catMap f l₁).Perm (catMap f l₂) := by
  induction h with
  | nil => exact List.Perm.refl _
  | cons x _ ih =>
    simp only [catMap]
    exact List.Perm.append_left (f x) ih
  | swap x y l =>
    simp only [catMap]
    rw [← List.append_assoc, ← List.append_assoc]
    exact List.Perm.append_right _ List.perm_append_comm
  | trans _ _ ih₁ ih₂ => exact ih₁.trans ih₂

theorem catMap_eq_nil {α β : Type} (f : α → List β) (l : List α)
    (h : ∀ x ∈ l, f x = []) : catMap f l = [] := by
  induction l with
  | nil => rfl
  | cons x xs ih =>
    simp [catMap, h x (List.mem_cons_self x xs), ih fun y hy => h y (List.mem_cons_of_mem x hy)]

/-- First-occurrence-wins deduplication by key, written from the spec's words:
retain the first element seen for each distinct key, in original relative
order. -/
def dedupFirstBy {α K : Type} [DecidableEq K] (fn : α → K) : List α → List α
  | [] => []
  | x :: xs => x :: (dedupFirstBy fn xs).filter (fun y => ¬ fn y = fn x)

/-- First-occurrence-wins deduplication of a list of keys. -/
def dedupFirst {K : Type} [DecidableEq K] (l : List K) : List K :=
  dedupFirstBy (fun k => k) l

theorem dedupFirstBy_sublist {α K : Type} [DecidableEq K] (fn : α → K) (l : List α) :
    (dedupFirstBy fn l).Sublist l := by
  induction l with
  | nil => simp [dedupFirstBy]
  | cons x xs ih =>
    exact List.Sublist.cons₂ x ((List.filter_sublist _).trans ih)

theorem mem_of_mem_dedupFirstBy {α K : Type} [DecidableEq K] {fn : α → K} {l : List α}
    {x : α} (h : x ∈ dedupFirstBy fn l) : x ∈ l :=
  (dedupFirstBy_sublist fn l).mem h

theorem dedupFirstBy_keys_mem {α K : Type} [DecidableEq K] (fn : α → K) (l : List α)
    (k : K) : k ∈ (dedupFirstBy fn l).map fn ↔ k ∈ l.map fn := by
  induction l with
  | nil => simp [dedupFirstBy]
  | cons x xs ih =>
    simp only [dedupFirstBy, List.map_cons, List.mem_cons]
    constructor
    · rintro (h | h)
      · exact Or.inl h
      · obtain ⟨y, hy, rfl⟩ := List.mem_map.mp h
        have := List.mem_filter.mp hy
        exact Or.inr (ih.mp (List.mem_map_of_mem fn this.1))
    · rintro (h | h)
      · exact Or.inl h
      · by_cases hk : k = fn x
        · exact Or.inl hk
        · obtain ⟨y, hy, rfl⟩ := List.mem_map.mp (ih.mpr h)
          refine Or.inr (List.mem_map_of_mem fn (List.mem_filter.mpr ⟨hy, ?_⟩))
          simpa using hk

theorem dedupFirstBy_keys_nodup {α K : Type} [DecidableEq K] (fn : α → K) (l : List α) :
    ((dedupFirstBy fn l).map fn).Nodup := by
  induction l with
  | nil => simp [dedupFirstBy]
  | cons x xs ih =>
    simp only [dedupFirstBy, List.map_cons, List.nodup_cons]
    constructor
    · intro hmem
      obtain ⟨y, hy, hfy⟩ := List.mem_map.mp hmem
      have := (List.mem_filter.mp hy).2
      simp [hfy] at this
    · exact List.Nodup.sublist ((List.filter_sublist _).map fn) ih

theorem dedupFirst_nodup {K : Type} [DecidableEq K] (l : List K) : (dedupFirst l).Nodup := by
  have h := dedupFirstBy_keys_nodup (fun k => k) l
  simpa [dedupFirst] using h

theorem mem_dedupFirst {K : Type} [DecidableEq K] (l : List K) (k : K) :
    k ∈ dedupFirst l ↔ k ∈ l := by
  have h := dedupFirstBy_keys_mem (fun k => k) l k
  simpa [dedupFirst] using h

theorem dedupFirst_cons {K : Type} [DecidableEq K] (z : K) (zs : List K) :
    dedupFirst (z :: zs) = z :: (dedupFirst zs).filter (fun w => ¬ w = z) := rfl

theorem dedupFirst_snoc {K : Type} [DecidableEq K] (l : List K) (x : K) :
    dedupFirst (l ++ [x]) = if x ∈ l then dedupFirst l else dedupFirst l ++ [x] := by
  induction l with
  | nil => simp [dedupFirst, dedupFirstBy]
  | cons y l ih =>
    by_cases h1 : x ∈ l
    · have hx : x ∈ y :: l := List.mem_cons_of_mem y h1
      rw [List.cons_append, dedupFirst_cons, ih, if_pos h1, if_pos hx, dedupFirst_cons]
    · by_cases h2 : x = y
      · subst h2
        have hx : x ∈ x :: l := List.mem_cons_self x l
        rw [List.cons_append, dedupFirst_cons, ih, if_neg h1, if_pos hx, dedupFirst_cons,
          List.filter_append]
        simp
      · have hxy : ¬ x ∈ y :: l := by simp [List.mem_cons, h2, h1]
        rw [List.cons_append, dedupFirst_cons, ih, if_neg h1, if_neg hxy, dedupFirst_cons,
          List.filter_append, List.cons_append]
        simp [h2]

theorem dedupFirstBy_filter_key {α K : Type} [DecidableEq K] (fn : α → K) (p : K → Bool)
    (l : List α) :
    dedupFirstBy fn (l.filter (fun x => p (fn x)))
      = (dedupFirstBy fn l).filter (fun x => p (fn x)) := by
  induction l with
  | nil => rfl
  | cons y ys ih =>
    by_cases hy : p (fn y) = true
    · rw [List.filter_cons, if_pos hy]
      show dedupFirstBy fn (y :: ys.filter (fun x => p (fn x)))
        = (y :: (dedupFirstBy fn ys).filter (fun z => ¬ fn z = fn y)).filter
            (fun x => p (fn x))
      rw [List.filter_cons, if_pos hy]
      simp only [dedupFirstBy]
      rw [ih, List.filter_filter, List.filter_filter]
      exact congrArg (List.cons y) (List.filter_congr (fun a _ => by rw [Bool.and_comm]))
    · have hy' : p (fn y) = false := by simpa using hy
      rw [List.filter_cons, if_neg (by simp [hy'])]
      show dedupFirstBy fn (ys.filter (fun x => p (fn x)))
        = (y :: (dedupFirstBy fn ys).filter (fun z => ¬ fn z = fn y)).filter
            (fun x => p (fn x))
      rw [List.filter_cons, if_neg (by simp [hy'])]
      rw [ih, List.filter_filter]
      refine List.filter_congr (fun a _ => ?_)
      by_cases h : p (fn a) = true
      · have hne : ¬ fn a = fn y := by
          intro hh
          rw [hh, hy'] at h
          exact Bool.noConfusion h
        simp [h, hne]
      · have h' : p (fn a) = false := by simpa using h
        simp [h']

/-- Go source: `DistinctAny`, the loop over `es` with the auxiliary seen-set
`tmp` (a Go map used only for membership, modelled as a list of keys). -/
def distinctAnyLoop {E K : Type} [DecidableEq K] (fn : E → K) :
    List E → List K → List E
  | [], _ => []
  | t :: es, tmp =>
    if fn t ∈ tmp then distinctAnyLoop fn es tmp
    else t :: distinctAnyLoop fn es (fn t :: tmp)

/-- Go source: `DistinctAny` (duplicate removal keyed by `fn`). -/
def DistinctAny {E K : Type} [DecidableEq K] (es : List E) (fn : E → K) : List E :=
  distinctAnyLoop fn es []

/-- Go source: `Distinct`, with its short-circuit paths for lengths 0, 1, 2. -/
def Distinct {E : Type} [DecidableEq E] (ts : List E) : List E :=
  if ts.length < 2 then ts
  else if h : ts.length = 2 then
    if ts.get ⟨0, by omega⟩ = ts.get ⟨1, by omega⟩ then ts.take 1 else ts
  else DistinctAny ts (fun t => t)

theorem distinctAnyLoop_eq {E K : Type} [DecidableEq K] (fn : E → K) (es : List E)
    (tmp : List K) :
    distinctAnyLoop fn es tmp = dedupFirstBy fn (es.filter (fun e => ¬ fn e ∈ tmp)) := by
  induction es generalizing tmp with
  | nil => rfl
  | cons x es ih =>
    by_cases hx : fn x ∈ tmp
    · simp only [distinctAnyLoop, if_pos hx, List.filter_cons]
      have : (decide (¬ fn x ∈ tmp)) = false := by simp [hx]
      rw [this]
      simp only [Bool.false_eq_true, if_false]
      exact ih tmp
    · simp only [distinctAnyLoop, if_neg hx, List.filter_cons]
      have : (decide (¬ fn x ∈ tmp)) = true := by simp [hx]
      rw [this]
      simp only [if_true, dedupFirstBy]
      rw [ih (fn x :: tmp)]
      have hsplit : es.filter (fun e => ¬ fn e ∈ fn x :: tmp)
          = (es.filter (fun e => ¬ fn e ∈ tmp)).filter (fun e => ¬ fn e = fn x) := by
        rw [List.filter_filter]
        refine List.filter_congr (fun a _ => ?_)
        by_cases h1 : fn a ∈ tmp <;> by_cases h2 : fn a = fn x <;>
          simp [List.mem_cons, h1, h2]
      rw [hsplit]
      have := dedupFirstBy_filter_key fn (fun k => decide (¬ k = fn x))
        (es.filter (fun e => ¬ fn e ∈ tmp))
      exact congrArg (List.cons x) this

theorem DistinctAny_eq {E K : Type} [DecidableEq K] (es : List E) (fn : E → K) :
    DistinctAny es fn = dedupFirstBy fn es := by
  rw [DistinctAny, distinctAnyLoop_eq]
  congr 1
  exact List.filter_eq_self.mpr (fun a _ => by simp)

theorem Distinct_eq {E : Type} [DecidableEq E] (ts : List E) :
    Distinct ts = DistinctAny ts (fun t => t) := by
  rcases ts with _ | ⟨a, _ | ⟨b, _ | ⟨c, rest⟩⟩⟩
  · rfl
  · rfl
  · by_cases hab : a = b
    · subst hab
      simp [Distinct, DistinctAny, distinctAnyLoop]
    · have hba : ¬ b = a := fun h => hab h.symm
      simp [Distinct, DistinctAny, distinctAnyLoop, hab, hba]
  · have h1 : ¬ ((a :: b :: c :: rest).length < 2) := by
      simp only [List.length_cons]
      omega
    have h2 : ¬ ((a :: b :: c :: rest).length = 2) := by
      simp only [List.length_cons]
      omega
    rw [Distinct, if_neg h1, dif_neg h2]

/-- Go source: the main loop of `SliceSubFuncs`.  `k` is the key-set built
from `b`, `t` the dedup set of already-emitted keys. -/
def sliceSubLoop {T E : Type} [DecidableEq E] (fna : T → E) (k : List E) :
    List T → List E → List T
  | [], _ => []
  | x :: a, t =>
    if fna x ∈ t then sliceSubLoop fna k a t
    else if fna x ∈ k then sliceSubLoop fna k a t
    else x :: sliceSubLoop fna k a (fna x :: t)

/-- Go source: `SliceSubFuncs` (set difference a - b keyed by `fna`/`fnb`,
with the empty-`b` short circuit returning `a` itself). -/
def SliceSubFuncs {T V E : Type} [DecidableEq E] (a : List T) (b : List V)
    (fna : T → E) (fnb : V → E) : List T :=
  if b.isEmpty then a
  else sliceSubLoop fna (b.map fnb) a []

theorem sliceSubLoop_eq {T E : Type} [DecidableEq E] (fna : T → E) (k : List E)
    (a : List T) (t : List E) :
    sliceSubLoop fna k a t
      = distinctAnyLoop fna (a.filter (fun x => ¬ fna x ∈ k)) t := by
  induction a generalizing t with
  | nil => rfl
  | cons x a ih =>
    by_cases hk : fna x ∈ k
    · have hk' : (decide (¬ fna x ∈ k)) = false := by simp [hk]
      by_cases ht : fna x ∈ t
      · simp only [sliceSubLoop, if_pos ht, List.filter_cons, hk', Bool.false_eq_true,
          if_false]
        exact ih t
      · simp only [sliceSubLoop, if_neg ht, if_pos hk, List.filter_cons, hk',
          Bool.false_eq_true, if_false]
        exact ih t
    · have hk' : (decide (¬ fna x ∈ k)) = true := by simp [hk]
      by_cases ht : fna x ∈ t
      · simp only [sliceSubLoop, if_pos ht, List.filter_cons, hk', if_true,
          distinctAnyLoop, ih]
      · simp only [sliceSubLoop, if_neg ht, if_neg hk, List.filter_cons, hk', if_true,
          distinctAnyLoop, ih]

/-- C2: `SliceSubFuncs(a, b, fna, fnb)` with non-empty `b` returns the
elements of `a` whose key is absent from `b`'s key-set, deduplicated by key
with the first occurrence retained, in `a`'s original order (stated as
equality with the spec-modelled `dedupFirstBy` of the filtered list); with
empty `b` it returns `a` unchanged with no deduplication applied. -/
theorem sliceSubFuncs_C2 {T V E : Type} [DecidableEq E] (a : List T) (b : List V)
    (fna : T → E) (fnb : V → E) (hb : b ≠ []) :
    SliceSubFuncs a b fna fnb
        = dedupFirstBy fna (a.filter (fun x => ¬ fna x ∈ b.map fnb)) ∧
      SliceSubFuncs a ([] : List V) fna fnb = a := by
  refine ⟨?_, rfl⟩
  have hne : b.isEmpty = false := by
    cases b with
    | nil => exact absurd rfl hb
    | cons v vs => rfl
  rw [SliceSubFuncs, hne]
  simp only [Bool.false_eq_true, if_false]
  rw [sliceSubLoop_eq, distinctAnyLoop_eq]
  congr 1
  exact List.filter_eq_self.mpr (fun x _ => by simp)

theorem sliceSubFuncs_C2_witness :
    ([2] : List Nat) ≠ [] ∧
      (SliceSubFuncs [1, 1, 2, 3] [2] (fun x : Nat => x) (fun x : Nat => x)
          = dedupFirstBy (fun x : Nat => x)
              (([1, 1, 2, 3] : List Nat).filter
                (fun x => ¬ (fun x : Nat => x) x ∈ ([2] : List Nat).map (fun x : Nat => x))) ∧
        SliceSubFuncs [1, 1, 2, 3] ([] : List Nat) (fun x : Nat => x) (fun x : Nat => x)
          = [1, 1, 2, 3]) :=
  ⟨by decide, sliceSubFuncs_C2 [1, 1, 2, 3] [2] (fun x => x) (fun x => x) (by decide)⟩

/-- Go source: the main loop of `SliceIntersectFuncs`.  The Go condition is
`ok && t[e] == struct zero value`; indexing the map `t` at a missing key
yields the zero value, so the second conjunct compares the zero value with
itself and is always true — the dedup map `t` never affects the outcome. -/
def sliceIntersectLoop {T E : Type} [DecidableEq E] (fna : T → E) (k : List E) :
    List T → List (E × Unit) → List T
  | [], _ => []
  | x :: a, t =>
    if fna x ∈ k ∧ (alistFind t (fna x)).getD () = () then
      x :: sliceIntersectLoop fna k a (alistUpd t (fna x) (fun _ => ()) ())
    else sliceIntersectLoop fna k a t

/-- Go source: `SliceIntersectFuncs` (keyed intersection; returns nil when
`b` is empty). -/
def SliceIntersectFuncs {T V E : Type} [DecidableEq E] (a : List T) (b : List V)
    (fna : T → E) (fnb : V → E) : List T :=
  if b.isEmpty then []
  else sliceIntersectLoop fna (b.map fnb) a []

/-- C1 (code bug): the claimed deduplication does not happen.  On
`a = [1,1]`, `b = [1]` with identity key functions the Go code returns
`[1,1]`, with the key `1` twice, because the dedup check
`t[e] == struct zero value` is vacuously true. -/
theorem sliceIntersectFuncs_C1_bug :
    SliceIntersectFuncs [1, 1] [1] (fun x : Nat => x) (fun x : Nat => x) = [1, 1] := by
  decide

/-- Wrap-around of a mathematical integer into a signed 64-bit value, the
semantics Go gives the `int` operations on a 64-bit platform. -/
def int64wrap (n : Int) : Int := (n + 2 ^ 63) % 2 ^ 64 - 2 ^ 63

theorem int64wrap_eq_self (n : Int) (h0 : -2 ^ 63 ≤ n) (h1 : n < 2 ^ 63) :
    int64wrap n = n := by
  have : (n + 2 ^ 63) % 2 ^ 64 = n + 2 ^ 63 := Int.emod_eq_of_lt (by omega) (by omega)
  simp only [int64wrap, this]
  omega

/-- Go source: `Paginate`.  Arithmetic on `int` wraps at 64 bits; the final
slice expression `es[start:end]` faults (modelled as `none`) unless
`0 ≤ start ≤ end ≤ len(es)` holds. -/
def Paginate {E : Type} (es : List E) (pageNumber showNumber : Int) : Option (List E) :=
  if pageNumber ≤ 0 then some []
  else if showNumber ≤ 0 then some []
  else
    let start := int64wrap (int64wrap (pageNumber - 1) * showNumber)
    let stop := int64wrap (start + showNumber)
    if (es.length : Int) ≤ start then some []
    else
      let stop2 := if (es.length : Int) < stop then (es.length : Int) else stop
      if 0 ≤ start ∧ start ≤ stop2 ∧ stop2 ≤ (es.length : Int) then
        some ((es.drop start.toNat).take (stop2 - start).toNat)
      else none

/-- Pagination contract written from the spec's words: start index
`(pageNumber-1)*showNumber` (exact integer arithmetic), page truncated to the
sequence length, empty result for non-positive page number or size or a start
beyond the end. -/
def paginateSpec {E : Type} (es : List E) (pageNumber showNumber : Int) : List E :=
  if pageNumber ≤ 0 ∨ showNumber ≤ 0 then []
  else if (es.length : Int) ≤ (pageNumber - 1) * showNumber then []
  else (es.drop ((pageNumber - 1) * showNumber).toNat).take showNumber.toNat

theorem paginate_no_overflow {E : Type} (es : List E) (p s : Int)
    (h : 0 < p → 0 < s → p * s < 2 ^ 63) :
    Paginate es p s = some (paginateSpec es p s) := by
  by_cases hp : p ≤ 0
  · simp [Paginate, paginateSpec, hp]
  · by_cases hs : s ≤ 0
    · simp [Paginate, paginateSpec, hp, hs]
    · push_neg at hp hs
      have hps : p * s < 2 ^ 63 := h hp hs
      have hp1 : p ≤ p * s := by
        calc p = p * 1 := by ring
          _ ≤ p * s := by
            apply mul_le_mul_of_nonneg_left _ (le_of_lt hp)
            omega
      have hq : (p - 1) * s = p * s - s := by ring
      have hw1 : int64wrap (p - 1) = p - 1 := int64wrap_eq_self _ (by omega) (by omega)
      have hstart0 : 0 ≤ (p - 1) * s := mul_nonneg (by omega) (by omega)
      have hw2 : int64wrap ((p - 1) * s) = (p - 1) * s :=
        int64wrap_eq_self _ (by omega) (by omega)
      have hstop0 : (p - 1) * s + s = p * s := by ring
      have hw3 : int64wrap ((p - 1) * s + s) = (p - 1) * s + s :=
        int64wrap_eq_self _ (by omega) (by omega)
      have hp' : ¬ p ≤ 0 := by omega
      have hs' : ¬ s ≤ 0 := by omega
      rw [Paginate]
      rw [if_neg hp', if_neg hs']
      simp only [hw1, hw2, hw3]
      by_cases hlen : (es.length : Int) ≤ (p - 1) * s
      · rw [if_pos hlen]
        rw [paginateSpec, if_neg (by omega), if_pos hlen]
      · rw [if_neg hlen]
        push_neg at hlen
        by_cases hclip : (es.length : Int) < (p - 1) * s + s
        · rw [if_pos hclip, if_pos (by omega)]
          rw [paginateSpec, if_neg (by omega), if_neg (by omega)]
          congr 1
          have hlen2 : ((es.drop ((p - 1) * s).toNat).length : Int)
              = (es.length : Int) - (p - 1) * s := by
            simp [List.length_drop]
            omega
          rw [List.take_of_length_le (by omega), List.take_of_length_le (by omega)]
        · rw [if_neg hclip, if_pos (by omega)]
          rw [paginateSpec, if_neg (by omega), if_neg (by omega)]
          have harith : (p - 1) * s + s - (p - 1) * s = s := by ring
          rw [harith]

/-- C4 counterexample: at `pageNumber = 2^62 + 1`, `showNumber = 4` the Go
start index `(pageNumber-1)*showNumber` wraps to `0` in 64-bit arithmetic, so
the code returns the front of the slice, while the claimed formula puts the
start at `2^64 ≥ len` and demands an empty result. -/
theorem paginate_C4_counterexample :
    Paginate ([10, 20, 30] : List Int) (2 ^ 62 + 1) 4 = some [10, 20, 30] ∧
      paginateSpec ([10, 20, 30] : List Int) (2 ^ 62 + 1) 4 = [] ∧
      some ([10, 20, 30] : List Int) ≠ some ([] : List Int) := by
  refine ⟨by decide, by decide, by decide⟩

/-- C4 (amended): provided the product `pageNumber*showNumber` does not
overflow a signed 64-bit integer, `Paginate` returns (without faulting)
exactly the page described by the spec formula: start index
`(pageNumber-1)*showNumber`, length `showNumber` truncated to the sequence
length, and an empty result for non-positive page number or size or a start
at or beyond the end. -/
theorem paginate_C4_amended {E : Type} (es : List E) (p s : Int)
    (h : 0 < p → 0 < s → p * s < 2 ^ 63) :
    Paginate es p s = some (paginateSpec es p s) :=
  paginate_no_overflow es p s h

theorem paginate_C4_witness :
    ((0 : Int) < 2 → (0 : Int) < 3 → (2 * 3 : Int) < 2 ^ 63) ∧
      Paginate ([1, 2, 3, 4, 5, 6, 7, 8, 9, 10] : List Int) 2 3
        = some (paginateSpec ([1, 2, 3, 4, 5, 6, 7, 8, 9, 10] : List Int) 2 3) :=
  ⟨by norm_num, paginate_C4_amended [1, 2, 3, 4, 5, 6, 7, 8, 9, 10] 2 3 (by norm_num)⟩

/-- C5 counterexample: at `pageNumber = 2^62`, `showNumber = 4` the start
index wraps to `-4`; the guard `start >= len(es)` does not catch it, so the
Go slice expression `es[-4:0]` panics (modelled as `none`): `Paginate` is not
total. -/
theorem paginate_C5_counterexample :
    Paginate ([0] : List Int) (2 ^ 62) 4 = none := by decide

/-- C5 (amended): `Paginate` returns normally (empty result on invalid
numeric input, never a panic) for every input whose product
`pageNumber*showNumber` does not overflow a signed 64-bit integer; for
overflowing products the wrapped start index can go negative and the slice
access faults. -/
theorem paginate_C5_amended {E : Type} (es : List E) (p s : Int)
    (h : 0 < p → 0 < s → p * s < 2 ^ 63) :
    (Paginate es p s).isSome = true := by
  rw [paginate_no_overflow es p s h]
  rfl

theorem paginate_C5_witness :
    ((0 : Int) < 3 → (0 : Int) < 5 → (3 * 5 : Int) < 2 ^ 63) ∧
      (Paginate ([1, 2] : List Int) 3 5).isSome = true :=
  ⟨by norm_num, paginate_C5_amended [1, 2] 3 5 (by norm_num)⟩

/-- Error value produced by `GetElemByIndex`: the Go call
`errs.New("index out of range", "index", index, "array", array)` carries the
offending index and the array contents. -/
structure OutOfRangeError where
  index : Int
  array : List Int

/-- Go source: `GetElemByIndex` (checked indexed access into an int array);
the out-of-bounds case is the library's sole explicit error. -/
def GetElemByIndex (array : List Int) (index : Int) : Except OutOfRangeError Int :=
  if h : index < 0 ∨ (array.length : Int) ≤ index then
    Except.error ⟨index, array⟩
  else
    Except.ok (array.get ⟨index.toNat, by omega⟩)

/-- C8: `GetElemByIndex` fails with an error carrying the offending index
and the array exactly when the index is out of bounds, returns the indexed
element otherwise, and in particular errors on `([1,2,3], 5)` and returns
`2` on `([1,2,3], 1)`. -/
theorem getElemByIndex_C8 (array : List Int) (index : Int) :
    ((∃ e, GetElemByIndex array index = Except.error e
        ∧ e.index = index ∧ e.array = array)
      ↔ (index < 0 ∨ (array.length : Int) ≤ index))
    ∧ (∀ x : Int, GetElemByIndex array index = Except.ok x
        ↔ (0 ≤ index ∧ array.get? index.toNat = some x))
    ∧ GetElemByIndex [1, 2, 3] 5 = Except.error ⟨5, [1, 2, 3]⟩
    ∧ GetElemByIndex [1, 2, 3] 1 = Except.ok 2 := by
  refine ⟨⟨?_, ?_⟩, fun x => ⟨?_, ?_⟩, rfl, rfl⟩
  · rintro ⟨e, he, h1, h2⟩
    by_cases h : index < 0 ∨ (array.length : Int) ≤ index
    · exact h
    · rw [GetElemByIndex, dif_neg h] at he
      exact absurd he (by simp)
  · intro h
    refine ⟨⟨index, array⟩, ?_, rfl, rfl⟩
    rw [GetElemByIndex, dif_pos h]
  · intro hx
    by_cases h : index < 0 ∨ (array.length : Int) ≤ index
    · rw [GetElemByIndex, dif_pos h] at hx
      exact absurd hx (by simp)
    · rw [GetElemByIndex, dif_neg h] at hx
      have hx' := Except.ok.inj hx
      push_neg at h
      refine ⟨h.1, ?_⟩
      rw [← hx']
      exact List.get?_eq_get _
  · rintro ⟨h0, hsome⟩
    obtain ⟨hlt, hget⟩ := List.get?_eq_some.mp hsome
    have h : ¬ (index < 0 ∨ (array.length : Int) ≤ index) := by
      push_neg
      constructor
      · omega
      · omega
    rw [GetElemByIndex, dif_neg h]
    exact congrArg Except.ok hget

/-- C6: `DistinctAny` retains exactly the first occurrence of each distinct
key in input traversal order, discarding later duplicates (stated as equality
with the spec-modelled first-wins dedup `dedupFirstBy`), and `Distinct`
coincides with `DistinctAny` at the identity key function for all input
sizes, including the short-circuit paths for lengths 0, 1 and 2. -/
theorem distinct_C6 {E K : Type} [DecidableEq K] [DecidableEq E] :
    (∀ (es : List E) (fn : E → K), DistinctAny es fn = dedupFirstBy fn es) ∧
      (∀ ts : List E, Distinct ts = DistinctAny ts (fun t => t)) :=
  ⟨fun es fn => DistinctAny_eq es fn, fun ts => Distinct_eq ts⟩

/-- Go source: `kn[e]++` on the counting map of `Single` (a missing key
reads as the zero value 0). -/
def cntIncr {E : Type} [DecidableEq E] (m : List (E × Nat)) (e : E) : List (E × Nat) :=
  alistUpd m e (fun n => n + 1) 0

/-- Go source: `Single` (keys in exactly one of the two deduplicated
inputs).  The final Go loop ranges over the counting map; it is modelled in
insertion order, which is immaterial below since only the set of emitted
keys — in fact only emptiness — is used. -/
def Single {E : Type} [DecidableEq E] (a b : List E) : List E :=
  (((Distinct b).foldl cntIncr ((Distinct a).foldl cntIncr [])).filter
      (fun p => p.2 = 1)).map Prod.fst

/-- Go source: `Complete` (whether a and b are equal after deduplication,
ignoring order). -/
def Complete {E : Type} [DecidableEq E] (a b : List E) : Bool :=
  (Single a b).length == 0

theorem cnt_foldl {E : Type} [DecidableEq E] (l : List E) (m : List (E × Nat)) (k : E) :
    (alistFind (l.foldl cntIncr m) k).getD 0 = (alistFind m k).getD 0 + l.count k := by
  induction l generalizing m with
  | nil => simp
  | cons x l ih =>
    rw [List.foldl_cons, ih, cntIncr, alistFind_upd]
    by_cases h : k = x
    · subst h
      simp [List.count_cons]
      omega
    · have h' : ¬ x = k := fun hh => h hh.symm
      simp [List.count_cons, h, h']

theorem foldl_cntIncr_keys_nodup {E : Type} [DecidableEq E] (l : List E)
    (m : List (E × Nat)) (h : (m.map Prod.fst).Nodup) :
    ((l.foldl cntIncr m).map Prod.fst).Nodup := by
  induction l generalizing m with
  | nil => exact h
  | cons x l ih => exact ih _ (alistUpd_keys_nodup m x _ 0 h)

theorem alistFind_of_mem {K V : Type} [DecidableEq K] (m : List (K × V)) (p : K × V)
    (hN : (m.map Prod.fst).Nodup) (h : p ∈ m) : alistFind m p.1 = some p.2 := by
  induction m with
  | nil => cases h
  | cons q m' ih =>
    obtain ⟨k0, v0⟩ := q
    simp only [List.map_cons, List.nodup_cons] at hN
    rcases List.mem_cons.mp h with h | h
    · subst h
      simp [alistFind]
    · have hne : ¬ k0 = p.1 := by
        intro hh
        refine hN.1 ?_
        rw [hh]
        exact List.mem_map_of_mem Prod.fst h
      simp [alistFind, hne, ih hN.2 h]

theorem distinct_count {E : Type} [DecidableEq E] (l : List E) (k : E) :
    (Distinct l).count k = if k ∈ l then 1 else 0 := by
  rw [Distinct_eq, DistinctAny_eq]
  by_cases h : k ∈ l
  · rw [if_pos h]
    refine List.count_eq_one_of_mem ?_ ?_
    · have := dedupFirst_nodup l
      simpa [dedupFirst] using this
    · have := (mem_dedupFirst l k).mpr h
      simpa [dedupFirst] using this
  · rw [if_neg h]
    exact List.count_eq_zero_of_not_mem
      (fun hc => h (mem_of_mem_dedupFirstBy hc))

/-- C7: `Complete(a, b)` holds exactly when `a` and `b` contain the same set
of keys, regardless of order or duplicates, and equivalently exactly when the
symmetric difference `Single(a, b)` is empty. -/
theorem complete_C7 {E : Type} [DecidableEq E] (a b : List E) :
    (Complete a b = true ↔ ∀ x, x ∈ a ↔ x ∈ b) ∧
      (Complete a b = true ↔ Single a b = []) := by
  have hemp : Complete a b = true ↔ Single a b = [] := by
    rw [Complete]
    simp [List.length_eq_zero]
  refine ⟨?_, hemp⟩
  rw [hemp]
  have hN : ((((Distinct b).foldl cntIncr ((Distinct a).foldl cntIncr [])).map
      Prod.fst)).Nodup :=
    foldl_cntIncr_keys_nodup _ _ (foldl_cntIncr_keys_nodup _ [] (by simp))
  have hcnt : ∀ k, (alistFind ((Distinct b).foldl cntIncr
      ((Distinct a).foldl cntIncr [])) k).getD 0
        = (if k ∈ a then 1 else 0) + (if k ∈ b then 1 else 0) := by
    intro k
    rw [cnt_foldl, cnt_foldl]
    simp [alistFind, distinct_count]
  have hSingle : Single a b = [] ↔
      ∀ p ∈ (Distinct b).foldl cntIncr ((Distinct a).foldl cntIncr []),
        ¬ p.2 = 1 := by
    rw [Single, List.map_eq_nil, List.filter_eq_nil]
    constructor
    · intro h p hp
      have := h p hp
      simpa using this
    · intro h p hp
      simpa using h p hp
  rw [hSingle]
  constructor
  · intro h x
    by_cases hxa : x ∈ a <;> by_cases hxb : x ∈ b
    · simp [hxa, hxb]
    · exfalso
      have h1 : (alistFind ((Distinct b).foldl cntIncr
          ((Distinct a).foldl cntIncr [])) x).getD 0 = 1 := by
        rw [hcnt x, if_pos hxa, if_neg hxb]
      obtain ⟨n, hn⟩ : ∃ n, alistFind ((Distinct b).foldl cntIncr
          ((Distinct a).foldl cntIncr [])) x = some n := by
        cases hfind : alistFind ((Distinct b).foldl cntIncr
            ((Distinct a).foldl cntIncr [])) x with
        | none => rw [hfind] at h1; simp at h1
        | some n => exact ⟨n, rfl⟩
      have hn1 : n = 1 := by rw [hn] at h1; simpa using h1
      exact h (x, n) (alistFind_mem _ _ _ hn) hn1
    · exfalso
      have h1 : (alistFind ((Distinct b).foldl cntIncr
          ((Distinct a).foldl cntIncr [])) x).getD 0 = 1 := by
        rw [hcnt x, if_neg hxa, if_pos hxb]
      obtain ⟨n, hn⟩ : ∃ n, alistFind ((Distinct b).foldl cntIncr
          ((Distinct a).foldl cntIncr [])) x = some n := by
        cases hfind : alistFind ((Distinct b).foldl cntIncr
            ((Distinct a).foldl cntIncr [])) x with
        | none => rw [hfind] at h1; simp at h1
        | some n => exact ⟨n, rfl⟩
      have hn1 : n = 1 := by rw [hn] at h1; simpa using h1
      exact h (x, n) (alistFind_mem _ _ _ hn) hn1
    · simp [hxa, hxb]
  · intro h p hp
    have hfind := alistFind_of_mem _ p hN hp
    have hcv := hcnt p.1
    rw [hfind] at hcv
    simp only [Option.getD_some] at hcv
    by_cases hxa : p.1 ∈ a
    · have hxb : p.1 ∈ b := (h p.1).mp hxa
      rw [hcv]
      simp [hxa, hxb]
    · have hxb : ¬ p.1 ∈ b := fun hb => hxa ((h p.1).mpr hb)
      rw [hcv]
      simp [hxa, hxb]

/-- Go source: the grouping map `kv` of `Order`:
`kv[fn(t)] = append(kv[fn(t)], t)` over `ts` in order. -/
def buildKV {E T : Type} [DecidableEq E] (fn : T → E) (ts : List T) : List (E × List T) :=
  ts.foldl (fun m t => alistUpd m (fn t) (fun vs => vs ++ [t]) []) []

/-- Go source: the loop of `Order` over the reference keys `es`: read the
group of each key (`kv[e]`, zero value nil when absent), delete the key, and
append the group; returns the emitted prefix together with the remaining
map. -/
def orderLoop {E T : Type} [DecidableEq E] (es : List E) (kv : List (E × List T)) :
    List T × List (E × List T) :=
  match es with
  | [] => ([], kv)
  | e :: es' =>
    let vs := (alistFind kv e).getD []
    let p := orderLoop es' (alistDel kv e)
    (vs ++ p.1, p.2)

/-- Go source: `Order` (sorts `ts` by the reference key sequence `es`).  The
trailing `for k := range kv` over the remaining map is modelled by applying
the iteration-order parameter `σ` to the insertion-ordered key list. -/
def Order {E T : Type} [DecidableEq E] (σ : List E → List E) (es : List E) (ts : List T)
    (fn : T → E) : List T :=
  if es.isEmpty || ts.isEmpty then ts
  else
    let kv := buildKV fn ts
    let p := orderLoop es kv
    p.1 ++ catMap (fun k => (alistFind p.2 k).getD []) (σ (p.2.map Prod.fst))

theorem buildKV_snoc {E T : Type} [DecidableEq E] (fn : T → E) (ts : List T) (t : T) :
    buildKV fn (ts ++ [t]) = alistUpd (buildKV fn ts) (fn t) (fun vs => vs ++ [t]) [] := by
  rw [buildKV, List.foldl_append]
  rfl

theorem buildKV_find {E T : Type} [DecidableEq E] (fn : T → E) (ts : List T) (k : E) :
    (alistFind (buildKV fn ts) k).getD [] = ts.filter (fun t => fn t = k) := by
  induction ts using List.reverseRecOn with
  | nil => simp [buildKV, alistFind]
  | append_singleton ts t ih =>
    rw [buildKV_snoc, alistFind_upd]
    by_cases h : k = fn t
    · subst h
      simp [List.filter_append, ih]
    · rw [if_neg h, ih, List.filter_append]
      have h' : ¬ fn t = k := fun hh => h hh.symm
      simp [h']

theorem buildKV_keys {E T : Type} [DecidableEq E] (fn : T → E) (ts : List T) :
    (buildKV fn ts).map Prod.fst = dedupFirst (ts.map fn) := by
  induction ts using List.reverseRecOn with
  | nil => simp [buildKV, dedupFirst, dedupFirstBy]
  | append_singleton ts t ih =>
    rw [buildKV_snoc, alistUpd_keys, ih, List.map_append, List.map_singleton,
      dedupFirst_snoc]
    by_cases h : fn t ∈ ts.map fn
    · rw [if_pos ((mem_dedupFirst _ _).mpr h), if_pos h]
    · rw [if_neg (fun hc => h ((mem_dedupFirst _ _).mp hc)), if_neg h]

theorem buildKV_keys_nodup {E T : Type} [DecidableEq E] (fn : T → E) (ts : List T) :
    ((buildKV fn ts).map Prod.fst).Nodup := by
  rw [buildKV_keys]
  exact dedupFirst_nodup _

theorem orderLoop_snd {E T : Type} [DecidableEq E] (es : List E)
    (kv : List (E × List T)) : (orderLoop es kv).2 = es.foldl alistDel kv := by
  induction es generalizing kv with
  | nil => rfl
  | cons e es ih => simp [orderLoop, ih, List.foldl_cons]

theorem foldl_del_keys {E T : Type} [DecidableEq E] (es : List E)
    (kv : List (E × List T)) :
    (es.foldl alistDel kv).map Prod.fst = es.foldl List.erase (kv.map Prod.fst) := by
  induction es generalizing kv with
  | nil => rfl
  | cons e es ih => rw [List.foldl_cons, List.foldl_cons, ih, alistDel_keys]

theorem foldl_erase_eq_filter {E : Type} [DecidableEq E] (es : List E) (ks : List E)
    (h : ks.Nodup) : es.foldl List.erase ks = ks.filter (fun k => ¬ k ∈ es) := by
  induction es generalizing ks with
  | nil =>
    symm
    exact List.filter_eq_self.mpr (fun a _ => by simp)
  | cons e es ih =>
    rw [List.foldl_cons, ih _ (h.erase e), List.Nodup.erase_eq_filter h e,
      List.filter_filter]
    refine List.filter_congr (fun a _ => ?_)
    by_cases h1 : a = e <;> by_cases h2 : a ∈ es <;> simp [h1, h2]

theorem foldl_del_find_not_mem {E T : Type} [DecidableEq E] (es : List E)
    (kv : List (E × List T)) (k : E) (h : ¬ k ∈ es) :
    alistFind (es.foldl alistDel kv) k = alistFind kv k := by
  induction es generalizing kv with
  | nil => rfl
  | cons e es ih =>
    simp only [List.mem_cons] at h
    push_neg at h
    rw [List.foldl_cons, ih _ h.2, alistFind_del_ne _ _ _ h.1]

theorem orderLoop_fst {E T : Type} [DecidableEq E] (es : List E)
    (kv : List (E × List T)) (h : (kv.map Prod.fst).Nodup) :
    (orderLoop es kv).1
      = catMap (fun e => (alistFind kv e).getD []) (dedupFirst es) := by
  induction es generalizing kv with
  | nil => rfl
  | cons e es ih =>
    have hN' : ((alistDel kv e).map Prod.fst).Nodup := by
      rw [alistDel_keys]
      exact h.erase e
    show (alistFind kv e).getD [] ++ (orderLoop es (alistDel kv e)).1 = _
    rw [ih _ hN', dedupFirst_cons]
    have hstep1 : catMap (fun x => (alistFind (alistDel kv e) x).getD [])
          (dedupFirst es)
        = catMap (fun x => (alistFind (alistDel kv e) x).getD [])
            ((dedupFirst es).filter (fun w => ¬ w = e)) := by
      refine catMap_filter_of_eq_nil _ _ _ (fun x _ hfalse => ?_)
      have hxe : x = e := by simpa using hfalse
      subst hxe
      rw [alistFind_del_self _ _ h]
      rfl
    have hstep2 : catMap (fun x => (alistFind (alistDel kv e) x).getD [])
          ((dedupFirst es).filter (fun w => ¬ w = e))
        = catMap (fun x => (alistFind kv x).getD [])
            ((dedupFirst es).filter (fun w => ¬ w = e)) := by
      refine catMap_congr (fun x hx => ?_)
      have hxe : ¬ x = e := by simpa using (List.mem_filter.mp hx).2
      rw [alistFind_del_ne _ _ _ hxe]
    rw [hstep1, hstep2]
    rfl

/-- Full characterization of `Order`: the groups of the (first occurrences
of the) reference keys in reference order, followed by the groups of the
remaining keys in the map iteration order `σ` applied to their
first-appearance order; each group is contiguous and lists its elements in
input order. -/
theorem Order_eq {E T : Type} [DecidableEq E] (σ : List E → List E) (es : List E)
    (ts : List T) (fn : T → E) (hσ : ∀ l : List E, (σ l).Perm l) :
    Order σ es ts fn =
      if es.isEmpty || ts.isEmpty then ts
      else
        catMap (fun k => ts.filter (fun t => fn t = k)) (dedupFirst es)
          ++ catMap (fun k => ts.filter (fun t => fn t = k))
              (σ ((dedupFirst (ts.map fn)).filter (fun k => ¬ k ∈ es))) := by
  by_cases hcond : (es.isEmpty || ts.isEmpty) = true
  · rw [Order, if_pos hcond, if_pos hcond]
  · rw [Order, if_neg hcond, if_neg hcond]
    have hkN : ((buildKV fn ts).map Prod.fst).Nodup := buildKV_keys_nodup fn ts
    have hsnd : (orderLoop es (buildKV fn ts)).2 = es.foldl alistDel (buildKV fn ts) :=
      orderLoop_snd es _
    have hkeys2 : ((orderLoop es (buildKV fn ts)).2).map Prod.fst
        = (dedupFirst (ts.map fn)).filter (fun k => ¬ k ∈ es) := by
      rw [hsnd, foldl_del_keys, buildKV_keys,
        foldl_erase_eq_filter es _ (dedupFirst_nodup _)]
    have hfst : (orderLoop es (buildKV fn ts)).1
        = catMap (fun k => ts.filter (fun t => fn t = k)) (dedupFirst es) := by
      rw [orderLoop_fst es _ hkN]
      exact catMap_congr (fun x _ => by rw [buildKV_find])
    have hleft : catMap (fun k => (alistFind (orderLoop es (buildKV fn ts)).2 k).getD [])
          (σ (((orderLoop es (buildKV fn ts)).2).map Prod.fst))
        = catMap (fun k => ts.filter (fun t => fn t = k))
            (σ ((dedupFirst (ts.map fn)).filter (fun k => ¬ k ∈ es))) := by
      rw [hkeys2]
      refine catMap_congr (fun x hx => ?_)
      have hxmem : x ∈ (dedupFirst (ts.map fn)).filter (fun k => ¬ k ∈ es) :=
        (hσ _).subset hx
      have hxe : ¬ x ∈ es := by simpa using (List.mem_filter.mp hxmem).2
      rw [hsnd, foldl_del_find_not_mem es _ x hxe, buildKV_find]
    show (orderLoop es (buildKV fn ts)).1
        ++ catMap (fun k => (alistFind (orderLoop es (buildKV fn ts)).2 k).getD [])
            (σ (((orderLoop es (buildKV fn ts)).2).map Prod.fst)) = _
    rw [hfst, hleft]

theorem catMap_cons_hot {E T : Type} [DecidableEq E] (g : E → List T) (t : T) (kt : E)
    (ks : List E) (hN : ks.Nodup) (hmem : kt ∈ ks) :
    (catMap (fun k => if kt = k then t :: g k else g k) ks).Perm
      (t :: catMap g ks) := by
  induction ks with
  | nil => cases hmem
  | cons k0 ks ih =>
    simp only [List.nodup_cons] at hN
    rcases List.mem_cons.mp hmem with h | h
    · subst h
      simp only [catMap]
      have hrest : catMap (fun k => if kt = k then t :: g k else g k) ks
          = catMap g ks :=
        catMap_congr (fun x hx => by
          have hne : ¬ kt = x := fun hh => hN.1 (hh ▸ hx)
          rw [if_neg hne])
      rw [if_pos trivial, hrest, List.cons_append]
    · have hne : ¬ kt = k0 := fun hh => hN.1 (hh ▸ h)
      simp only [catMap, if_neg hne]
      exact (List.Perm.append_left (g k0) (ih hN.2 h)).trans List.perm_middle

theorem catMap_filter_partition {E T : Type} [DecidableEq E] (fn : T → E) (ks : List E)
    (ts : List T) (hN : ks.Nodup) (hcov : ∀ t ∈ ts, fn t ∈ ks) :
    (catMap (fun k => ts.filter (fun t => fn t = k)) ks).Perm ts := by
  induction ts with
  | nil =>
    have h : catMap (fun k => ([] : List T).filter (fun t => fn t = k)) ks = [] :=
      catMap_eq_nil _ _ (fun k _ => rfl)
    rw [h]
  | cons t ts ih =>
    have hcov' : ∀ x ∈ ts, fn x ∈ ks := fun x hx => hcov x (List.mem_cons_of_mem t hx)
    have hpt : catMap (fun k => (t :: ts).filter (fun x => fn x = k)) ks
        = catMap (fun k => if fn t = k then t :: ts.filter (fun x => fn x = k)
            else ts.filter (fun x => fn x = k)) ks := by
      refine catMap_congr (fun k _ => ?_)
      rw [List.filter_cons]
      by_cases h : fn t = k
      · simp [h]
      · simp [h]
    rw [hpt]
    exact (catMap_cons_hot _ t (fn t) ks hN (hcov t (List.mem_cons_self t ts))).trans
      ((ih hcov').cons t)

/-- C10: `Order` returns a permutation of `ts`: no element is dropped or
duplicated, for any admissible map iteration order `σ`, any reference keys
(including duplicates and keys without matching elements), any target and
any key function. -/
theorem order_C10_perm {E T : Type} [DecidableEq E] (σ : List E → List E) (es : List E)
    (ts : List T) (fn : T → E) (hσ : ∀ l : List E, (σ l).Perm l) :
    (Order σ es ts fn).Perm ts := by
  rw [Order_eq σ es ts fn hσ]
  by_cases hcond : (es.isEmpty || ts.isEmpty) = true
  · rw [if_pos hcond]
  · rw [if_neg hcond]
    have hstep1 : catMap (fun k => ts.filter (fun t => fn t = k)) (dedupFirst es)
        = catMap (fun k => ts.filter (fun t => fn t = k))
            ((dedupFirst es).filter (fun k => k ∈ ts.map fn)) := by
      refine catMap_filter_of_eq_nil _ _ _ (fun k _ hfalse => ?_)
      have hk : ¬ k ∈ ts.map fn := by simpa using hfalse
      refine List.filter_eq_nil.mpr (fun t ht => ?_)
      simp only [decide_eq_true_eq]
      intro hc
      exact hk (hc ▸ List.mem_map_of_mem fn ht)
    have hstep2 : (catMap (fun k => ts.filter (fun t => fn t = k))
          (σ ((dedupFirst (ts.map fn)).filter (fun k => ¬ k ∈ es)))).Perm
        (catMap (fun k => ts.filter (fun t => fn t = k))
          ((dedupFirst (ts.map fn)).filter (fun k => ¬ k ∈ es))) :=
      catMap_perm _ (hσ _)
    have hjoin : (catMap (fun k => ts.filter (fun t => fn t = k))
            ((dedupFirst es).filter (fun k => k ∈ ts.map fn))
          ++ catMap (fun k => ts.filter (fun t => fn t = k))
            ((dedupFirst (ts.map fn)).filter (fun k => ¬ k ∈ es)))
        = catMap (fun k => ts.filter (fun t => fn t = k))
            ((dedupFirst es).filter (fun k => k ∈ ts.map fn)
              ++ (dedupFirst (ts.map fn)).filter (fun k => ¬ k ∈ es)) :=
      (catMap_append _ _ _).symm
    have hNodup : ((dedupFirst es).filter (fun k => k ∈ ts.map fn)
        ++ (dedupFirst (ts.map fn)).filter (fun k => ¬ k ∈ es)).Nodup := by
      rw [List.nodup_append]
      refine ⟨(dedupFirst_nodup es).filter _, (dedupFirst_nodup _).filter _, ?_⟩
      intro x hx1 hx2
      have hxe : x ∈ es := by
        have := (List.mem_filter.mp hx1).1
        exact (mem_dedupFirst es x).mp this
      have hxne : ¬ x ∈ es := by
        simpa using (List.mem_filter.mp hx2).2
      exact hxne hxe
    have hcov : ∀ t ∈ ts, fn t ∈ (dedupFirst es).filter (fun k => k ∈ ts.map fn)
        ++ (dedupFirst (ts.map fn)).filter (fun k => ¬ k ∈ es) := by
      intro t ht
      rw [List.mem_append]
      by_cases hes : fn t ∈ es
      · left
        refine List.mem_filter.mpr ⟨(mem_dedupFirst es _).mpr hes, ?_⟩
        simp [List.mem_map_of_mem fn ht]
      · right
        refine List.mem_filter.mpr
          ⟨(mem_dedupFirst _ _).mpr (List.mem_map_of_mem fn ht), ?_⟩
        simpa using hes
    have hA : (catMap (fun k => ts.filter (fun t => fn t = k)) (dedupFirst es)
          ++ catMap (fun k => ts.filter (fun t => fn t = k))
            (σ ((dedupFirst (ts.map fn)).filter (fun k => ¬ k ∈ es)))).Perm
        (catMap (fun k => ts.filter (fun t => fn t = k))
            ((dedupFirst es).filter (fun k => k ∈ ts.map fn))
          ++ catMap (fun k => ts.filter (fun t => fn t = k))
            ((dedupFirst (ts.map fn)).filter (fun k => ¬ k ∈ es))) := by
      rw [hstep1]
      exact List.Perm.append_left _ hstep2
    have hB : (catMap (fun k => ts.filter (fun t => fn t = k))
            ((dedupFirst es).filter (fun k => k ∈ ts.map fn))
          ++ catMap (fun k => ts.filter (fun t => fn t = k))
            ((dedupFirst (ts.map fn)).filter (fun k => ¬ k ∈ es))).Perm ts := by
      rw [hjoin]
      exact catMap_filter_partition fn _ ts hNodup hcov
    exact hA.trans hB

theorem order_C10_witness :
    (Order (fun l : List Nat => l) [2, 1] [4, 1, 1] (fun x : Nat => x)).Perm [4, 1, 1] :=
  order_C10_perm (fun l => l) [2, 1] [4, 1, 1] (fun x => x) (fun l => List.Perm.refl l)

/-- C3 counterexample: with reference keys `[1]` and target `[4, 5]` under
the identity key, reversing the leftover-key iteration order — a permutation
of the keys, hence an admissible Go map iteration — makes `Order` append the
leftover groups as `[5, 4]` instead of their original relative order
`[4, 5]`. -/
theorem order_C3_counterexample :
    (∀ l : List Nat, (List.reverse l).Perm l) ∧
      Order (fun l : List Nat => l.reverse) [1] [4, 5] (fun x : Nat => x) = [5, 4] ∧
      ([5, 4] : List Nat) ≠ [4, 5] :=
  ⟨fun l => List.reverse_perm l, by decide, by decide⟩

/-- C3 (amended): `Order(es, ts, fn)` emits the elements of `ts` grouped by
key in the order keys first appear in `es`, then appends the elements whose
key does not appear in `es`, grouped contiguously per key and preserving
input order within each key group — but the relative order of those leftover
key groups follows the unspecified Go map iteration order (modelled by an
arbitrary permutation `σ` of their first-appearance order), not necessarily
their original relative order; if `es` or `ts` is empty, `ts` is returned
unchanged. -/
theorem order_C3_amended {E T : Type} [DecidableEq E] (σ : List E → List E)
    (es : List E) (ts : List T) (fn : T → E) (hσ : ∀ l : List E, (σ l).Perm l) :
    Order σ es ts fn =
      if es.isEmpty || ts.isEmpty then ts
      else
        catMap (fun k => ts.filter (fun t => fn t = k)) (dedupFirst es)
          ++ catMap (fun k => ts.filter (fun t => fn t = k))
              (σ ((dedupFirst (ts.map fn)).filter (fun k => ¬ k ∈ es))) :=
  Order_eq σ es ts fn hσ

theorem order_C3_witness :
    Order (fun l : List Nat => l) [2, 1, 3] [1, 3, 1, 4] (fun x : Nat => x) =
      if ([2, 1, 3] : List Nat).isEmpty || ([1, 3, 1, 4] : List Nat).isEmpty then
        [1, 3, 1, 4]
      else
        catMap (fun k => ([1, 3, 1, 4] : List Nat).filter
            (fun t => (fun x : Nat => x) t = k)) (dedupFirst [2, 1, 3])
          ++ catMap (fun k => ([1, 3, 1, 4] : List Nat).filter
              (fun t => (fun x : Nat => x) t = k))
              ((fun l : List Nat => l)
                ((dedupFirst (([1, 3, 1, 4] : List Nat).map (fun x : Nat => x))).filter
                  (fun k => ¬ k ∈ ([2, 1, 3] : List Nat)))) :=
  order_C3_amended (fun l => l) [2, 1, 3] [1, 3, 1, 4] (fun x => x)
    (fun l => List.Perm.refl l)

/-- Go source: one per-slice map of `BothExistAny`: `kv[fn(t)] = t` over the
slice, last write winning on key collisions. -/
def buildLW {E K : Type} [DecidableEq K] (fn : E → K) (e : List E) : List (K × E) :=
  e.foldl (fun m t => alistUpd m (fn t) (fun _ => t) t) []

/-- Go source: the `idx` selection of `BothExistAny`: index of the smallest
per-slice key-map, scanning left to right with strict `<` (ties keep the
earlier index). -/
def minIdxGo (lens : List Nat) : Nat :=
  (List.range lens.length).foldl
    (fun idx i => if lens.getD i 0 < lens.getD idx 0 then i else idx) 0

/-- Go source: `BothExistAny` (multi-way keyed intersection): empty result
for an empty slice list or any empty input slice; otherwise drive from the
`idx`-th key-map, keep keys present in all other maps, and emit the driver's
stored element for each kept key.  The `for k := range ei[idx]` loop is
modelled by the iteration-order parameter `σ` on the insertion-ordered key
list. -/
def BothExistAny {E K : Type} [DecidableEq K] (σ : List K → List K)
    (es : List (List E)) (fn : E → K) : List E :=
  if es.isEmpty then []
  else if es.any (fun e => e.isEmpty) then []
  else
    let ei := es.map (buildLW fn)
    let idx := minIdxGo (ei.map (fun m => m.length))
    let driver := ei.getD idx []
    ((σ (driver.map Prod.fst)).filter (fun k =>
        (List.range ei.length).all
          (fun i => i = idx ∨ k ∈ (ei.getD i []).map Prod.fst))).filterMap
      (fun k => alistFind driver k)

theorem minIdxGo_lt (lens : List Nat) (h : lens ≠ []) : minIdxGo lens < lens.length := by
  have hgen : ∀ (l : List Nat) (acc : Nat), acc < lens.length →
      (∀ i ∈ l, i < lens.length) →
      (l.foldl (fun idx i => if lens.getD i 0 < lens.getD idx 0 then i else idx) acc)
        < lens.length := by
    intro l
    induction l with
    | nil =>
      intro acc h1 _
      exact h1
    | cons x xs ih =>
      intro acc h1 h2
      rw [List.foldl_cons]
      refine ih _ ?_ (fun i hi => h2 i (List.mem_cons_of_mem x hi))
      by_cases hc : lens.getD x 0 < lens.getD acc 0
      · rw [if_pos hc]
        exact h2 x (List.mem_cons_self x xs)
      · rw [if_neg hc]
        exact h1
  refine hgen _ 0 ?_ (fun i hi => List.mem_range.mp hi)
  cases lens with
  | nil => exact absurd rfl h
  | cons a l => simp

theorem buildLW_snoc {E K : Type} [DecidableEq K] (fn : E → K) (e : List E) (t : E) :
    buildLW fn (e ++ [t]) = alistUpd (buildLW fn e) (fn t) (fun _ => t) t := by
  rw [buildLW, List.foldl_append]
  rfl

theorem buildLW_keys_mem {E K : Type} [DecidableEq K] (fn : E → K) (e : List E) :
    ∀ k, k ∈ (buildLW fn e).map Prod.fst ↔ k ∈ e.map fn := by
  induction e using List.reverseRecOn with
  | nil =>
    intro k
    simp [buildLW]
  | append_singleton e t ih =>
    intro k
    rw [buildLW_snoc, alistUpd_keys, List.map_append, List.map_singleton]
    by_cases h : fn t ∈ (buildLW fn e).map Prod.fst
    · rw [if_pos h]
      have hft : fn t ∈ e.map fn := (ih (fn t)).mp h
      rw [ih k]
      constructor
      · intro hk
        exact List.mem_append.mpr (Or.inl hk)
      · intro hk
        rcases List.mem_append.mp hk with hk | hk
        · exact hk
        · simp only [List.mem_singleton] at hk
          subst hk
          exact hft
    · rw [if_neg h, List.mem_append, List.mem_append, ih k]

theorem buildLW_keys_nodup {E K : Type} [DecidableEq K] (fn : E → K) (e : List E) :
    ((buildLW fn e).map Prod.fst).Nodup := by
  suffices h : ∀ (l : List E) (m : List (K × E)), (m.map Prod.fst).Nodup →
      ((l.foldl (fun m t => alistUpd m (fn t) (fun _ => t) t) m).map Prod.fst).Nodup by
    exact h e [] (by simp)
  intro l
  induction l with
  | nil =>
    intro m hm
    exact hm
  | cons x xs ih =>
    intro m hm
    exact ih _ (alistUpd_keys_nodup _ _ _ _ hm)

theorem buildLW_entry {E K : Type} [DecidableEq K] (fn : E → K) (e : List E) :
    ∀ p ∈ buildLW fn e, fn p.2 = p.1 := by
  suffices h : ∀ (l : List E) (m : List (K × E)), (∀ p ∈ m, fn p.2 = p.1) →
      ∀ p ∈ l.foldl (fun m t => alistUpd m (fn t) (fun _ => t) t) m, fn p.2 = p.1 by
    exact h e [] (by simp)
  intro l
  induction l with
  | nil =>
    intro m hm
    exact hm
  | cons x xs ih =>
    intro m hm
    refine ih _ (fun p hp => ?_)
    rcases mem_alistUpd _ _ _ _ p hp with h | ⟨h1, w, h2⟩
    · exact hm p h
    · have h2' : p.2 = x := h2
      rw [h2', h1]

/-- C9: a key appears among the keys of `BothExistAny`'s result exactly when
it is present (by key) in every input slice, and each such key appears
exactly once, for any admissible driver iteration order; an empty slice list
or any empty input slice forces an empty result. -/
theorem bothExistAny_C9 {E K : Type} [DecidableEq K] (σ : List K → List K)
    (es : List (List E)) (fn : E → K) (hσ : ∀ l : List K, (σ l).Perm l) :
    ((BothExistAny σ es fn).map fn).Nodup ∧
      (∀ k, k ∈ (BothExistAny σ es fn).map fn ↔
        (es ≠ [] ∧ ∀ e ∈ es, k ∈ e.map fn)) := by
  by_cases hnil : es.isEmpty = true
  · have hes : es = [] := List.isEmpty_iff.mp hnil
    subst hes
    have hres : BothExistAny σ ([] : List (List E)) fn = [] := rfl
    rw [hres]
    constructor
    · simp
    · intro k
      simp
  · by_cases hemp : es.any (fun e => e.isEmpty) = true
    · obtain ⟨e0, he0, he0e⟩ := List.any_eq_true.mp hemp
      have he0' : e0 = [] := List.isEmpty_iff.mp he0e
      have hres : BothExistAny σ es fn = [] := by
        rw [BothExistAny, if_neg hnil, if_pos hemp]
      rw [hres]
      constructor
      · simp
      · intro k
        simp only [List.map_nil, List.not_mem_nil, false_iff]
        rintro ⟨-, hall⟩
        have hk := hall e0 he0
        rw [he0'] at hk
        simp at hk
    · have hesne : es ≠ [] := fun hc => hnil (by rw [hc]; rfl)
      have hres : BothExistAny σ es fn
          = ((σ (((es.map (buildLW fn)).getD
                  (minIdxGo ((es.map (buildLW fn)).map (fun m => m.length))) []).map
                Prod.fst)).filter (fun k =>
              (List.range (es.map (buildLW fn)).length).all
                (fun i => i = minIdxGo ((es.map (buildLW fn)).map (fun m => m.length))
                  ∨ k ∈ ((es.map (buildLW fn)).getD i []).map Prod.fst))).filterMap
            (fun k => alistFind ((es.map (buildLW fn)).getD
              (minIdxGo ((es.map (buildLW fn)).map (fun m => m.length))) []) k) := by
        rw [BothExistAny, if_neg hnil, if_neg hemp]
      rw [hres]
      set ei := es.map (buildLW fn) with hei
      set idx := minIdxGo (ei.map (fun m => m.length)) with hidx
      set driver := ei.getD idx [] with hdriver
      have heilen : ei.length = es.length := by
        rw [hei]
        exact List.length_map _ _
      have hidxlt : idx < es.length := by
        have h1 : (ei.map (fun m => m.length)) ≠ [] := by
          intro hc
          apply hesne
          have h2 : ei = [] := List.map_eq_nil.mp hc
          rw [hei] at h2
          exact List.map_eq_nil.mp h2
        have h2 := minIdxGo_lt _ h1
        rw [List.length_map, heilen] at h2
        exact h2
      have hgetD : ∀ i, i < es.length → ei.getD i [] = buildLW fn (es.getD i []) := by
        intro i hi
        rw [hei, List.getD_eq_getD_get?, List.getD_eq_getD_get?, List.get?_map,
          List.get?_eq_get hi]
        rfl
      have hgetDe : ∀ (i : Nat) (hi : i < es.length), es.getD i [] = es.get ⟨i, hi⟩ := by
        intro i hi
        rw [List.getD_eq_getD_get?, List.get?_eq_get hi]
        rfl
      have ha : es.getD idx [] ∈ es := by
        rw [hgetDe idx hidxlt]
        exact List.get_mem es idx hidxlt
      have hdrv : driver = buildLW fn (es.getD idx []) := by
        rw [hdriver]
        exact hgetD idx hidxlt
      have hdN : (driver.map Prod.fst).Nodup := by
        rw [hdrv]
        exact buildLW_keys_nodup _ _
      have hmapfilterMap : ∀ l : List K, (∀ k ∈ l, k ∈ driver.map Prod.fst) →
          ((l.filterMap (fun k => alistFind driver k)).map fn) = l := by
        intro l
        induction l with
        | nil =>
          intro _
          rfl
        | cons k l ih =>
          intro hmem
          obtain ⟨v, hv⟩ := (alistFind_isSome_iff driver k).mpr
            (hmem k (List.mem_cons_self _ _))
          have hventry : (k, v) ∈ driver := alistFind_mem _ _ _ hv
          have hfv : fn v = k := by
            have hv' : (k, v) ∈ buildLW fn (es.getD idx []) := by
              rw [← hdrv]
              exact hventry
            exact buildLW_entry fn (es.getD idx []) (k, v) hv'
          rw [List.filterMap_cons_some hv, List.map_cons, hfv,
            ih (fun x hx => hmem x (List.mem_cons_of_mem _ hx))]
      have hsub : ∀ k ∈ (σ (driver.map Prod.fst)).filter (fun k =>
            (List.range ei.length).all
              (fun i => i = idx ∨ k ∈ (ei.getD i []).map Prod.fst)),
          k ∈ driver.map Prod.fst := by
        intro k hk
        exact (hσ _).subset (List.mem_filter.mp hk).1
      rw [hmapfilterMap _ hsub]
      constructor
      · exact List.Nodup.filter _ (((hσ _).nodup_iff).mpr hdN)
      · intro k
        rw [List.mem_filter]
        constructor
        · rintro ⟨hk1, hk2⟩
          refine ⟨hesne, ?_⟩
          have hkdrv : k ∈ driver.map Prod.fst := (hσ _).subset hk1
          have hall := List.all_eq_true.mp hk2
          intro e he
          obtain ⟨⟨i, hi⟩, hgt⟩ := List.mem_iff_get.mp he
          by_cases hieq : i = idx
          · have hk3 : k ∈ (es.getD idx []).map fn := by
              rw [hdrv, buildLW_keys_mem] at hkdrv
              exact hkdrv
            rw [hgetDe idx hidxlt] at hk3
            have hfin : (⟨i, hi⟩ : Fin es.length) = ⟨idx, hidxlt⟩ := Fin.ext hieq
            rw [← hgt, hfin]
            exact hk3
          · have hiR : i < ei.length := by
              rw [heilen]
              exact hi
            have hpi := hall i (List.mem_range.mpr hiR)
            have hpi' : i = idx ∨ k ∈ (ei.getD i []).map Prod.fst := by
              simpa using hpi
            rcases hpi' with h | h
            · exact absurd h hieq
            · rw [hgetD i hi, buildLW_keys_mem] at h
              rw [← hgt, ← hgetDe i hi]
              exact h
        · rintro ⟨-, hall⟩
          have hkdrv : k ∈ driver.map Prod.fst := by
            rw [hdrv, buildLW_keys_mem]
            exact hall _ ha
          refine ⟨((hσ _).symm.subset) hkdrv, ?_⟩
          refine List.all_eq_true.mpr (fun i hi => ?_)
          by_cases hieq : i = idx
          · simp [hieq]
          · have hi' : i < es.length := by
              rw [← heilen]
              exact List.mem_range.mp hi
            have hmem : es.getD i [] ∈ es := by
              rw [hgetDe i hi']
              exact List.get_mem es i hi'
            have hk3 : k ∈ (ei.getD i []).map Prod.fst := by
              rw [hgetD i hi', buildLW_keys_mem]
              exact hall _ hmem
            have hor : i = idx ∨ k ∈ (ei.getD i []).map Prod.fst := Or.inr hk3
            simpa using hor

theorem bothExistAny_C9_witness :
    ((BothExistAny (fun l : List Nat => l) [[1, 2, 3], [2, 3, 4], [3, 4, 5]]
        (fun x : Nat => x)).map (fun x : Nat => x)).Nodup ∧
      (∀ k, k ∈ (BothExistAny (fun l : List Nat => l) [[1, 2, 3], [2, 3, 4], [3, 4, 5]]
          (fun x : Nat => x)).map (fun x : Nat => x) ↔
        (([[1, 2, 3], [2, 3, 4], [3, 4, 5]] : List (List Nat)) ≠ [] ∧
          ∀ e ∈ ([[1, 2, 3], [2, 3, 4], [3, 4, 5]] : List (List Nat)),
            k ∈ e.map (fun x : Nat => x))) :=
  bothExistAny_C9 (fun l => l) [[1, 2, 3], [2, 3, 4], [3, 4, 5]] (fun x => x)
    (fun l => List.Perm.refl l)

end DataUtil
